import Mathlib

/-!
Verification of the expense_input_format repository.

The repository has two Python modules:
  * `src/entries_utility.py` (embedded below in namespace `EU`), and
  * `src/parse.py` (an older variant of the same functions, namespace `PP`).

Python data is embedded as follows: strings become `String`, lists become
`List`, dicts become association lists `List (String × String)` (keys are
unique in every input we consider; `List.lookup` is dict lookup), Python
sets become duplicate-free lists queried by membership, and functions that
can raise become `Option`-valued.  Loops that are not structurally
recursive (the `while` loops of `fix_tag_hierarchy`, `is_hierarchy_valid`
and `add_sequence_number`) are embedded with an explicit fuel parameter;
for each of them a lemma shows that the fuel bound used by the embedding
is always sufficient, so the fueled function is exactly the Python loop.

The file is organised as: all definitions first, then all lemmas and the
claim theorems.
-/

/-- Python `sep.join(parts)` for a non-empty separator. -/
def pyJoin (sep : String) : List String → String
  | [] => ""
  | [a] => a
  | a :: b :: rest => a ++ sep ++ pyJoin sep (b :: rest)

/-- Python `s.split(d)` for a single-character separator `d`,
on the character list of `s`; `acc` is the reversed current piece. -/
def splitChar (d : Char) : List Char → List Char → List (List Char)
  | [], acc => [acc.reverse]
  | c :: rest, acc =>
    if c = d then acc.reverse :: splitChar d rest []
    else splitChar d rest (c :: acc)

/-- Python `s.split("::")` (the only multi-character split in the source),
with Python's leftmost, non-overlapping occurrence semantics. -/
def splitColons : List Char → List Char → List (List Char)
  | [], acc => [acc.reverse]
  | [c], acc => [(c :: acc).reverse]
  | c1 :: c2 :: rest, acc =>
    if c1 = ':' ∧ c2 = ':' then acc.reverse :: splitColons rest []
    else splitColons (c2 :: rest) (c1 :: acc)

/-- Python `s.split(d)` as a `String`-level function. -/
def pySplitChar (d : Char) (s : String) : List String :=
  (splitChar d s.data []).map String.mk

/-- `set(arguments[1]).intersection(set('/,@'))` is non-empty. -/
def hasDelimChar (s : String) : Bool :=
  s.data.any (fun c => c == '/' || c == ',' || c == '@')

/-- Python `str.isnumeric` restricted to ASCII decimal digits (the only
numeric characters relevant to this repository). -/
def pyIsNumeric (s : String) : Bool :=
  !s.data.isEmpty && s.data.all Char.isDigit

/-- `" ".join(arguments).replace(' ', '/')` — a single-character `replace`
is a character-wise map. -/
def slashJoin (arguments : List String) : String :=
  String.mk ((pyJoin " " arguments).data.map (fun c => if c = ' ' then '/' else c))

/-- The branch condition of `parse_arguemnt_entries` (identical in both
modules): fewer than two tokens, or the second token has no `/`, `,`, `@`
and is not purely numeric.  Python's `or` short-circuits, so
`arguments[1]` is only read when it exists; `getD 1 ""` is that access. -/
def singleEntryCond (arguments : List String) : Bool :=
  decide (arguments.length < 2) ||
    (!hasDelimChar (arguments.getD 1 "") && !pyIsNumeric (arguments.getD 1 ""))

namespace EU

/-- The entry dictionary built by `entries_utility.parse_single_dsl_entry`.
In the Python source the `date` key holds a string when `multiple_date` is
false and a list of strings when it is true; the embedding keeps both
shapes in separate fields (`date` is used iff `multiple_date = false`,
`dates` iff `multiple_date = true`). -/
structure Entry where
  expense : String
  title : String
  date : String
  dates : List String
  tags : List String
deriving DecidableEq, Repr

def emptyEntry : Entry := ⟨"", "", "", [], []⟩

inductive SegType where
  | expense
  | title
  | date
  | tags
deriving DecidableEq, Repr

/-- `store_segment` of `entries_utility.parse_single_dsl_entry`:
tags always append; dates append when `multiple_date`; every other case
overwrites the field with the joined segment. -/
def store_segment (multiple_date : Bool) (seg_type : SegType) (seg : List Char)
    (buf : Entry) : Entry :=
  match seg_type with
  | .tags => { buf with tags := buf.tags ++ [String.mk seg] }
  | .date =>
      if multiple_date then { buf with dates := buf.dates ++ [String.mk seg] }
      else { buf with date := String.mk seg }
  | .expense => { buf with expense := String.mk seg }
  | .title => { buf with title := String.mk seg }

/-- The scanner state of the character loop: current segment type, the
accumulated segment buffer, and the entry being filled in. -/
structure PState where
  seg_type : SegType
  seg : List Char
  buf : Entry
deriving DecidableEq, Repr

/-- The control characters skipped by the loop:  `{'\0', '\n', '\r', '\t'}`. -/
def ctrl : List Char := ['\x00', '\n', '\r', '\t']

def isCtrl (c : Char) : Bool := decide (c ∈ ctrl)

/-- One iteration of the `for i in string` loop of
`entries_utility.parse_single_dsl_entry`. -/
def step (multiple_date : Bool) (s : PState) (c : Char) : PState :=
  if isCtrl c then s
  else if c = '/' ∧ s.seg_type ≠ .title then
    ⟨.title, [], store_segment multiple_date s.seg_type s.seg s.buf⟩
  else if c = '@' ∧ s.seg_type ≠ .title then
    ⟨.date, [], store_segment multiple_date s.seg_type s.seg s.buf⟩
  else if c = ':' ∧ s.seg_type ≠ .title then
    ⟨.tags, [], store_segment multiple_date s.seg_type s.seg s.buf⟩
  else ⟨s.seg_type, s.seg ++ [c], s.buf⟩

/-- `entries_utility.parse_single_dsl_entry`. -/
def parse_single_dsl_entry (string : String) (multiple_date : Bool) : Entry :=
  let s := string.data.foldl (step multiple_date) ⟨.expense, [], emptyEntry⟩
  store_segment multiple_date s.seg_type s.seg s.buf

/-- A character that is neither a delimiter of the entries_utility DSL nor a
stripped control character: it is accumulated into the current segment. -/
def plainEU (c : Char) : Prop :=
  c ∉ ctrl ∧ c ≠ '/' ∧ c ≠ '@' ∧ c ≠ ':'

instance (c : Char) : Decidable (plainEU c) := by
  unfold plainEU; infer_instance

/-- `entries_utility.parse_arguemnt_entries`. -/
def parse_arguemnt_entries (arguments : List String) : List Entry :=
  if arguments.isEmpty then []
  else if singleEntryCond arguments then
    [parse_single_dsl_entry (slashJoin arguments) false]
  else arguments.map (fun e => parse_single_dsl_entry e false)

/-- A row of the TSV file, as a record with all five columns present;
an empty string (or empty list for tags) is the "absent" sentinel of the
data model. -/
structure TEntry where
  date : String
  seq : String
  expense : String
  title : String
  tags : List String
deriving DecidableEq, Repr

def emptyTEntry : TEntry := ⟨"", "", "", "", []⟩

/-- The body of `entries_utility.format_entry` for one entry: truthy
`date`/`title` or the `::::` sentinel, truthy `seq`/`expense` or nothing,
then the tag list wrapped and joined in `::`.  The Python `'tags' in ent`
test is always true here because `TEntry` is a total record. -/
def format_one (ent : TEntry) : String :=
  (if ent.date ≠ "" then ent.date else "::::") ++ "\t" ++
  (if ent.seq ≠ "" then ent.seq else "") ++ "\t" ++
  (if ent.expense ≠ "" then ent.expense else "") ++ "\t" ++
  (if ent.title ≠ "" then ent.title else "::::") ++ "\t" ++
  ("::" ++ (if ent.tags ≠ [] then pyJoin "::" ent.tags else "") ++ "::")

/-- `entries_utility.format_entry`. -/
def format_entry (entries : List TEntry) : List String := entries.map format_one

/-- Python `cell[2:-2]`. -/
def cut2 (l : List Char) : List Char := ((l.drop 2).dropLast).dropLast

/-- One `for name, cell in zip(columns, row.split('\t'))` iteration of
`entries_utility.parse_tsv_entries`. -/
def setColumn (ent : TEntry) (name : String) (cell : List Char) : TEntry :=
  if String.mk cell = "::::" then ent
  else if name = "tags" then
    (if 3 < cell.length then
      { ent with tags := (splitColons (cut2 cell) []).map String.mk }
     else ent)
  else if name = "date" then { ent with date := String.mk cell }
  else if name = "seq" then { ent with seq := String.mk cell }
  else if name = "expense" then { ent with expense := String.mk cell }
  else if name = "title" then { ent with title := String.mk cell }
  else ent

def columns : List String := ["date", "seq", "expense", "title", "tags"]

def parse_row (row : String) : TEntry :=
  (List.zip columns (splitChar '\t' row.data [])).foldl
    (fun e nc => setColumn e nc.1 nc.2) emptyTEntry

/-- `entries_utility.parse_tsv_entries` (`entries[start::]` drops the
header row when `skip_header`). -/
def parse_tsv_entries (entries : List String) (skip_header : Bool) : List TEntry :=
  (if skip_header then entries.drop 1 else entries).map parse_row

/-- The `while tag in hier and hier[tag] not in result` loop of
`entries_utility.fix_tag_hierarchy`, with explicit fuel.  Each iteration
appends one value of `hier` that is not yet in `result`, so
`hier.length + 1` fuel always suffices (`walkF_enough`). -/
def walkF (hier : List (String × String)) : Nat → String → List String → Option (List String)
  | 0, _, _ => none
  | fuel + 1, tag, result =>
    match List.lookup tag hier with
    | none => some result
    | some p => if p ∈ result then some result else walkF hier fuel p (result ++ [p])

def tagWalk (hier : List (String × String)) (tag : String) (result : List String) :
    List String :=
  (walkF hier (hier.length + 1) tag result).getD result

/-- The per-entry body of `entries_utility.fix_tag_hierarchy`: the Python
`set` named `result` is modelled as a duplicate-free list in insertion
order (`result.add(tag)` = append if not a member). -/
def expandTags (hier : List (String × String)) (tags : List String) : List String :=
  tags.foldl
    (fun result t => tagWalk hier t (if t ∈ result then result else result ++ [t])) []

/-- `entries_utility.fix_tag_hierarchy`. -/
def fix_tag_hierarchy (entries : List Entry) (hier : List (String × String)) :
    List Entry :=
  entries.map (fun ent => { ent with tags := expandTags hier ent.tags })

/-- The `while k in hier` loop of `entries_utility.is_hierarchy_valid`,
with explicit fuel.  `some none` means a cycle was detected (Python
`return False`), `some (some h)` means the walk completed with visited
set `h`.  Fuel `hier.length + 1` always suffices (`chainWalkF_enough`). -/
def chainWalkF (hier : List (String × String)) :
    Nat → String → List String → Option (Option (List String))
  | 0, _, _ => none
  | fuel + 1, k, history =>
    match List.lookup k hier with
    | none => some (some history)
    | some k2 =>
      if k2 ∈ history then some none
      else chainWalkF hier fuel k2 (history ++ [k2])

/-- Python `set(node_checking)`: the set of the *characters* of the node
name, as one-character strings (this is what the source really computes —
not the singleton `{node_checking}`). -/
def charSingletons (s : String) : List String := s.data.map (fun c => String.mk [c])

/-- The `for node_checking in hier` loop of
`entries_utility.is_hierarchy_valid`; the `valid_nodes` set is a list
queried by membership.  The impossible fuel-exhaustion outcome of
`chainWalkF` is mapped to `false` together with the cycle outcome. -/
def validLoop (hier : List (String × String)) : List String → List String → Bool
  | [], _ => true
  | node :: rest, valid_nodes =>
    if node ∈ valid_nodes then validLoop hier rest valid_nodes
    else
      match chainWalkF hier (hier.length + 1) node (charSingletons node) with
      | some (some h) => validLoop hier rest (valid_nodes ++ h)
      | _ => false

/-- `entries_utility.is_hierarchy_valid`. -/
def is_hierarchy_valid (hier : List (String × String)) : Bool :=
  validLoop hier (hier.map Prod.fst) []

/-- A declared child→parent edge of the hierarchy. -/
def Edge (hier : List (String × String)) (a b : String) : Prop :=
  List.lookup a hier = some b

/-- The spec's "ancestor closure": reachability by zero or more parent
lookups. -/
inductive TagReach (hier : List (String × String)) : String → String → Prop where
  | refl (t : String) : TagReach hier t t
  | tail {a b c : String} : TagReach hier a b → Edge hier b c → TagReach hier a c

/-- Reachability by at least one parent lookup; a cycle is a node that
reaches itself this way (this includes self-loops). -/
inductive ReachPlus (hier : List (String × String)) : String → String → Prop where
  | single {a b : String} : Edge hier a b → ReachPlus hier a b
  | tail {a b c : String} : ReachPlus hier a b → Edge hier b c → ReachPlus hier a c

/-- The spec's notion of an acyclic hierarchy. -/
def AcyclicHier (hier : List (String × String)) : Prop :=
  ∀ x, ¬ ReachPlus hier x x

/-- A set of tags closed under parent lookup. -/
def ParentClosed (hier : List (String × String)) (R : List String) : Prop :=
  ∀ x ∈ R, ∀ p, Edge hier x p → p ∈ R

/-- An entry as seen by `add_sequence_number`: only the `seq` key matters;
`none` models a missing `'seq'` key. -/
structure SeqEntry where
  seq : Option String
deriving DecidableEq, Repr

/-- Python `int(s)` restricted to (possibly zero-padded) non-negative
decimal numerals, the only shape of `seq` the spec admits; any other
string raises `ValueError`, i.e. `none`. -/
def pyInt (s : String) : Option Nat :=
  if s ≠ "" ∧ s.data.all Char.isDigit then
    some (s.data.foldl (fun a c => a * 10 + (c.toNat - 48)) 0)
  else none

/-- Little-endian decimal digits of `n` (with fuel; `fuel = n` suffices
for positive `n` since `n / 10 < n`). -/
def digitsRev : Nat → Nat → List Nat
  | 0, _ => []
  | fuel + 1, n => if n = 0 then [] else n % 10 :: digitsRev fuel (n / 10)

/-- Python `str(n)` for a natural number: canonical decimal numeral. -/
def pyStr (n : Nat) : String :=
  if n = 0 then "0"
  else String.mk (((digitsRev n n).reverse).map (fun d => Char.ofNat (48 + d)))

/-- The `while seq_num in existing_seq: seq_num += 1` loop of
`add_sequence_number`, with explicit fuel.  Among the `ex.length + 1`
candidates `c, c+1, …` at least one is outside `ex`, so that much fuel
always suffices (`nextFreeF_enough`). -/
def nextFreeF (ex : List Nat) : Nat → Nat → Option Nat
  | 0, _ => none
  | fuel + 1, c => if c ∈ ex then nextFreeF ex fuel (c + 1) else some c

def nextFree (ex : List Nat) (c : Nat) : Nat := (nextFreeF ex (ex.length + 1) c).getD c

/-- The reservation pass of `add_sequence_number` (`overwrite = False`):
collect `int(ent['seq'])` of every entry with a `seq` key, keeping values
`>= start`; a malformed `seq` raises, i.e. yields `none`.  (The list is
only ever queried by membership.) -/
def collectExisting : List SeqEntry → Nat → Option (List Nat)
  | [], _ => some []
  | e :: rest, start =>
    match e.seq with
    | none => collectExisting rest start
    | some s =>
      match pyInt s with
      | none => none
      | some v =>
        match collectExisting rest start with
        | none => none
        | some acc => some (if start ≤ v then v :: acc else acc)

/-- The assignment pass of `add_sequence_number`: the candidate counter is
advanced past the reservation set before each entry; entries with a
missing/empty `seq` (or all of them, when `overwrite`) get the candidate
as decimal text. -/
def assignLoop (ex : List Nat) (overwrite : Bool) : List SeqEntry → Nat → List SeqEntry
  | [], _ => []
  | e :: rest, c =>
    let n := nextFree ex c
    if e.seq = none ∨ e.seq = some "" ∨ overwrite = true then
      ⟨some (pyStr n)⟩ :: assignLoop ex overwrite rest (n + 1)
    else e :: assignLoop ex overwrite rest n

/-- `add_sequence_number` (identical in both modules). -/
def add_sequence_number (entries : List SeqEntry) (start : Nat) (overwrite : Bool) :
    Option (List SeqEntry) :=
  match (if overwrite then some [] else collectExisting entries start) with
  | none => none
  | some ex => some (assignLoop ex overwrite entries start)

/-- The result of `entries_utility.parse_query_string`: every `date`,
`tags` and `expense` value is further split on commas. -/
structure QEntry where
  expense : List String
  title : String
  dates : List (List String)
  tags : List (List String)
deriving DecidableEq, Repr

/-- `entries_utility.parse_query_string`. -/
def parse_query_string (query : String) : QEntry :=
  let entry := parse_single_dsl_entry query true
  { expense := pySplitChar ',' entry.expense
    title := entry.title
    dates := entry.dates.map (fun s => pySplitChar ',' s)
    tags := entry.tags.map (fun s => pySplitChar ',' s) }

/-- `s` with the control characters `'\0' '\n' '\r' '\t'` removed. -/
def stripCtrl (s : String) : String := String.mk (s.data.filter (fun c => !isCtrl c))

end EU

namespace PP

/-- The entry dictionary built by `parse.parse_single_dsl_entry` (the older
variant: comma delimits tags, `date` is always a single string). -/
structure Entry where
  expense : String
  title : String
  date : String
  tags : List String
deriving DecidableEq, Repr

def emptyEntry : Entry := ⟨"", "", "", []⟩

/-- `store_segment` of `parse.parse_single_dsl_entry`: tags append, the
scalar fields are only written when still empty (first non-empty wins). -/
def store_segment (seg_type : EU.SegType) (seg : List Char) (buf : Entry) : Entry :=
  match seg_type with
  | .tags => { buf with tags := buf.tags ++ [String.mk seg] }
  | .date => if buf.date = "" then { buf with date := String.mk seg } else buf
  | .expense => if buf.expense = "" then { buf with expense := String.mk seg } else buf
  | .title => if buf.title = "" then { buf with title := String.mk seg } else buf

structure PState where
  seg_type : EU.SegType
  seg : List Char
  buf : Entry
deriving DecidableEq, Repr

/-- One iteration of the `for i in string` loop of
`parse.parse_single_dsl_entry`; no control characters are skipped here. -/
def step (s : PState) (c : Char) : PState :=
  if c = '/' ∧ s.seg_type ≠ .title then ⟨.title, [], store_segment s.seg_type s.seg s.buf⟩
  else if c = '@' ∧ s.seg_type ≠ .title then ⟨.date, [], store_segment s.seg_type s.seg s.buf⟩
  else if c = ',' ∧ s.seg_type ≠ .title then ⟨.tags, [], store_segment s.seg_type s.seg s.buf⟩
  else ⟨s.seg_type, s.seg ++ [c], s.buf⟩

/-- Insertion into an ascending list; `pySort` models Python's
`list.sort()` on strings (ascending order). -/
def insertSorted (s : String) : List String → List String
  | [] => [s]
  | t :: ts => if t < s then t :: insertSorted s ts else s :: t :: ts

def pySort (l : List String) : List String :=
  l.foldl (fun acc s => insertSorted s acc) []

/-- `parse.parse_single_dsl_entry` (ends with `info['tags'].sort()`). -/
def parse_single_dsl_entry (string : String) : Entry :=
  let s := string.data.foldl step ⟨.expense, [], emptyEntry⟩
  let info := store_segment s.seg_type s.seg s.buf
  { info with tags := pySort info.tags }

/-- A character that is not a delimiter of the parse.py DSL. -/
def plainPP (c : Char) : Prop := c ≠ '/' ∧ c ≠ '@' ∧ c ≠ ','

instance (c : Char) : Decidable (plainPP c) := by
  unfold plainPP; infer_instance

/-- `parse.parse_arguemnt_entries`: same branch condition as the
entries_utility variant, but with no guard for an empty argument list
(the unused `default_info` parameter is dropped). -/
def parse_arguemnt_entries (arguments : List String) : List Entry :=
  if singleEntryCond arguments then
    [parse_single_dsl_entry (slashJoin arguments)]
  else arguments.map (fun e => parse_single_dsl_entry e)

end PP

/-- An entry as seen by `add_default_info`: the scalar fields as an
association list (a key may be absent), and the `tags` key separately
since its value is a list (`none` = key absent). -/
structure DEntry where
  scalars : List (String × String)
  tags : Option (List String)
deriving DecidableEq, Repr

/-- The defaults mapping passed to `add_default_info`, in the same shape. -/
structure DInfo where
  scalars : List (String × String)
  tags : Option (List String)
deriving DecidableEq, Repr

/-- Python dict assignment `ent[dk] = dv`. -/
def setScalar (ent : DEntry) (k v : String) : DEntry :=
  { ent with scalars := (k, v) :: ent.scalars.filter (fun kv => kv.1 != k) }

/-- `if dk not in ent or not ent[dk]: ent[dk] = dv`. -/
def applyScalarDefault (k v : String) (ent : DEntry) : DEntry :=
  match List.lookup k ent.scalars with
  | none => setScalar ent k v
  | some old => if old = "" then setScalar ent k v else ent

/-- The `dk == 'tags'` branch of `add_default_info`: extend existing tags,
otherwise evaluate `dv.clone()` — Python lists have no `clone` method, so
this raises `AttributeError`, i.e. returns `none`. -/
def applyTagsDefault (dv : List String) (ent : DEntry) : Option DEntry :=
  match ent.tags with
  | some ts => some { ent with tags := some (ts ++ dv) }
  | none => none

/-- `add_default_info` (identical in both modules).  The outer loop over
`info.items()` is split into the scalar keys and the `tags` key; the
relative dict order of the keys does not affect the outcome, only whether
the `tags` branch ever hits an entry without a `tags` key. -/
def add_default_info (entries : List DEntry) (info : DInfo) : Option (List DEntry) :=
  let entries1 := info.scalars.foldl
    (fun es kv => es.map (applyScalarDefault kv.1 kv.2)) entries
  match info.tags with
  | none => some entries1
  | some dv => entries1.mapM (applyTagsDefault dv)

/-! ## Lemmas and claim theorems -/

namespace EU

theorem step_plain {c : Char} (hc : plainEU c) (md : Bool) (s : PState) :
    step md s c = ⟨s.seg_type, s.seg ++ [c], s.buf⟩ := by
  obtain ⟨h0, h1, h2, h3⟩ := hc
  have hctrl : isCtrl c = false := by
    simp [isCtrl, h0]
  simp [step, hctrl, h1, h2, h3]

theorem foldl_step_plain (md : Bool) :
    ∀ (l : List Char), (∀ c ∈ l, plainEU c) → ∀ s : PState,
      l.foldl (step md) s = ⟨s.seg_type, s.seg ++ l, s.buf⟩ := by
  intro l
  induction l with
  | nil => intro _ s; simp
  | cons c rest ih =>
      intro hl s
      have hc : plainEU c := hl c (by simp)
      have hrest : ∀ x ∈ rest, plainEU x := fun x hx => hl x (by simp [hx])
      simp only [List.foldl_cons, step_plain hc]
      rw [ih hrest]
      simp

theorem step_at_sign (md : Bool) (st : SegType) (h : st ≠ .title)
    (seg : List Char) (buf : Entry) :
    step md ⟨st, seg, buf⟩ '@' = ⟨.date, [], store_segment md st seg buf⟩ := by
  have h0 : isCtrl '@' = false := by decide
  have h1 : ('@' : Char) ≠ '/' := by decide
  simp [step, h0, h1, h]

/-- With `multiple_date = false`, the *last* `date` segment wins in
`entries_utility.parse_single_dsl_entry`. -/
theorem eu_date_last_wins (a b c : List Char)
    (ha : ∀ x ∈ a, plainEU x) (hb : ∀ x ∈ b, plainEU x) (hc : ∀ x ∈ c, plainEU x) :
    (parse_single_dsl_entry (String.mk (a ++ '@' :: (b ++ '@' :: c))) false).date
      = String.mk c := by
  have hd : (String.mk (a ++ '@' :: (b ++ '@' :: c))).data
      = a ++ '@' :: (b ++ '@' :: c) := rfl
  unfold parse_single_dsl_entry
  rw [hd, List.foldl_append, foldl_step_plain false a ha, List.foldl_cons,
    step_at_sign false .expense (by simp) ([] ++ a) emptyEntry,
    List.foldl_append, foldl_step_plain false b hb, List.foldl_cons,
    step_at_sign false .date (by simp) ([] ++ b) _,
    foldl_step_plain false c hc]
  simp [store_segment]

end EU

namespace PP

theorem pp_step_plain {c : Char} (hc : plainPP c) (s : PState) :
    step s c = ⟨s.seg_type, s.seg ++ [c], s.buf⟩ := by
  obtain ⟨h1, h2, h3⟩ := hc
  simp [step, h1, h2, h3]

theorem pp_foldl_step_plain :
    ∀ (l : List Char), (∀ c ∈ l, plainPP c) → ∀ s : PState,
      l.foldl step s = ⟨s.seg_type, s.seg ++ l, s.buf⟩ := by
  intro l
  induction l with
  | nil => intro _ s; simp
  | cons c rest ih =>
      intro hl s
      have hc : plainPP c := hl c (by simp)
      have hrest : ∀ x ∈ rest, plainPP x := fun x hx => hl x (by simp [hx])
      simp only [List.foldl_cons, pp_step_plain hc]
      rw [ih hrest]
      simp

theorem pp_step_at_sign (st : EU.SegType) (h : st ≠ .title)
    (seg : List Char) (buf : Entry) :
    step ⟨st, seg, buf⟩ '@' = ⟨.date, [], store_segment st seg buf⟩ := by
  have h1 : ('@' : Char) ≠ '/' := by decide
  simp [step, h1, h]

/-- In `parse.parse_single_dsl_entry`, the first non-empty `date` segment
wins. -/
theorem pp_date_first_wins (a b c : List Char)
    (ha : ∀ x ∈ a, plainPP x) (hb : ∀ x ∈ b, plainPP x) (hc : ∀ x ∈ c, plainPP x)
    (hbne : b ≠ []) :
    (parse_single_dsl_entry (String.mk (a ++ '@' :: (b ++ '@' :: c)))).date
      = String.mk b := by
  have hd : (String.mk (a ++ '@' :: (b ++ '@' :: c))).data
      = a ++ '@' :: (b ++ '@' :: c) := rfl
  have hmkb : String.mk b ≠ "" := by
    intro h
    exact hbne (congrArg String.data h)
  unfold parse_single_dsl_entry
  rw [hd, List.foldl_append, pp_foldl_step_plain a ha, List.foldl_cons,
    pp_step_at_sign .expense (by simp) ([] ++ a) emptyEntry,
    List.foldl_append, pp_foldl_step_plain b hb, List.foldl_cons,
    pp_step_at_sign .date (by simp) ([] ++ b) _,
    pp_foldl_step_plain c hc]
  simp [store_segment, emptyEntry, hmkb]

end PP

/-- C1 (amended): when an input contains two `date` segments, the variants
disagree with the claimed first-wins policy as follows: in
`entries_utility.parse_single_dsl_entry` with `multiple_date = false` the
*last* `date` segment is stored and earlier ones are discarded, while in
`parse.parse_single_dsl_entry` the first *non-empty* `date` segment wins.
(`expense` and `title` segments cannot repeat: the scanner never returns
to `expense`, and `title` mode is permanent.) -/
theorem c1_date_segment_repetition :
    (∀ a b c : List Char, (∀ x ∈ a, EU.plainEU x) → (∀ x ∈ b, EU.plainEU x) →
      (∀ x ∈ c, EU.plainEU x) →
      (EU.parse_single_dsl_entry (String.mk (a ++ '@' :: (b ++ '@' :: c))) false).date
        = String.mk c) ∧
    (∀ a b c : List Char, (∀ x ∈ a, PP.plainPP x) → (∀ x ∈ b, PP.plainPP x) →
      (∀ x ∈ c, PP.plainPP x) → b ≠ [] →
      (PP.parse_single_dsl_entry (String.mk (a ++ '@' :: (b ++ '@' :: c)))).date
        = String.mk b) :=
  ⟨EU.eu_date_last_wins, PP.pp_date_first_wins⟩

/-- C1 counterexample: parsing `"a@d1@d2"` with `multiple_date = false`
yields date `"d2"` (the last occurrence), not `"d1"` as the claim states. -/
theorem c1_counterexample :
    (EU.parse_single_dsl_entry "a@d1@d2" false).date = "d2" ∧
    (EU.parse_single_dsl_entry "a@d1@d2" false).date ≠ "d1" := by
  constructor
  · decide
  · decide

/-- C1 witness: the amended statement evaluated at `"a@d1@d2"`. -/
theorem c1_witness :
    (EU.parse_single_dsl_entry
        (String.mk (['a'] ++ '@' :: (['d', '1'] ++ '@' :: ['d', '2']))) false).date
      = String.mk ['d', '2'] :=
  c1_date_segment_repetition.1 ['a'] ['d', '1'] ['d', '2']
    (by decide) (by decide) (by decide)

/-- C2: `is_hierarchy_valid` builds `history_node = set(node_checking)` — the
set of the *characters* of the node name instead of the singleton of the
name — so the acyclic one-edge hierarchy `{"aa": "a"}` is rejected: the code
returns `False` on an acyclic input, contradicting both the claim and the
function's own docstring ("Return True if there are no cycles or loops"). -/
theorem lookup_aa {x y : String} (h : List.lookup x [("aa", "a")] = some y) :
    x = "aa" ∧ y = "a" := by
  by_cases hx : x = "aa"
  · subst hx
    simp [List.lookup] at h
    exact ⟨rfl, h.symm⟩
  · have hbeq : (x == "aa") = false := by simp [hx]
    simp [List.lookup, hbeq] at h

theorem c2_hierarchy_validator_code_bug :
    EU.is_hierarchy_valid [("aa", "a")] = false ∧ EU.AcyclicHier [("aa", "a")] := by
  constructor
  · decide
  · have key : ∀ x y : String, EU.ReachPlus [("aa", "a")] x y → x = "aa" ∧ y = "a" := by
      intro x y h
      induction h with
      | single e => exact lookup_aa e
      | tail hab e ih =>
          obtain ⟨ha, hb⟩ := ih
          subst hb
          obtain ⟨h1, h2⟩ := lookup_aa e
          exact absurd h1 (by decide)
    intro x hx
    obtain ⟨h1, h2⟩ := key x x hx
    rw [h1] at h2
    exact absurd h2 (by decide)

/-- C7: `add_default_info` evaluates `dv.clone()` when an entry has no
`tags` key and the defaults mapping has one; Python lists have no `clone`
method, so the call raises `AttributeError` — the merge is not total.
Failing input: `entries = [{}]`, `info = {'tags': ['x']}`. -/
theorem c7_default_info_clone_bug :
    add_default_info [⟨[], none⟩] ⟨[], some ["x"]⟩ = none := by
  decide

/-- C8 (amended): `entries_utility.parse_arguemnt_entries` returns `[]` on
an empty token sequence, but the `parse.py` variant has no empty guard and
instead parses the empty joined string, returning one all-default entry. -/
theorem c8_empty_arguments :
    EU.parse_arguemnt_entries [] = [] ∧
    PP.parse_arguemnt_entries [] = [PP.emptyEntry] := by
  constructor
  · rfl
  · decide

/-- C8 counterexample: the `parse.py` batch parser applied to zero tokens
returns one (all-default) entry, not the empty list the claim states. -/
theorem c8_counterexample :
    PP.parse_arguemnt_entries [] ≠ [] := by
  decide

/-- C5: the batch parser's policy on a non-empty token sequence: one joined
entry when there is no second token or the second token has none of
`/`, `,`, `@` and is not purely numeric; otherwise one entry per token. -/
theorem c5_batch_policy (args : List String) (h : args ≠ []) :
    (singleEntryCond args = true →
      EU.parse_arguemnt_entries args
        = [EU.parse_single_dsl_entry (slashJoin args) false]) ∧
    (singleEntryCond args = false →
      EU.parse_arguemnt_entries args
        = args.map (fun a => EU.parse_single_dsl_entry a false)) := by
  have hne : args.isEmpty = false := by
    cases args with
    | nil => exact absurd rfl h
    | cons a t => rfl
  constructor
  · intro hc
    simp [EU.parse_arguemnt_entries, hne, hc]
  · intro hc
    simp [EU.parse_arguemnt_entries, hne, hc]

/-- C5 witness: `["12.50", "coffee", "with", "friends"]` is one entry whose
title is `"coffee/with/friends"`. -/
theorem c5_witness :
    EU.parse_arguemnt_entries ["12.50", "coffee", "with", "friends"]
      = [EU.parse_single_dsl_entry (slashJoin ["12.50", "coffee", "with", "friends"]) false] ∧
    (EU.parse_single_dsl_entry (slashJoin ["12.50", "coffee", "with", "friends"]) false).title
      = "coffee/with/friends" := by
  refine ⟨(c5_batch_policy ["12.50", "coffee", "with", "friends"] (by decide)).1 (by decide), ?_⟩
  decide

theorem eu_foldl_filter_ctrl (md : Bool) :
    ∀ (l : List Char) (s : EU.PState),
      (l.filter (fun c => !EU.isCtrl c)).foldl (EU.step md) s = l.foldl (EU.step md) s := by
  intro l
  induction l with
  | nil => intro s; rfl
  | cons c rest ih =>
      intro s
      cases hc : EU.isCtrl c with
      | true =>
          have hstep : EU.step md s c = s := by simp [EU.step, hc]
          simp [List.filter_cons, hc, hstep, ih]
      | false =>
          simp [List.filter_cons, hc, ih]

theorem eu_parse_ignores_ctrl (s : String) (md : Bool) :
    EU.parse_single_dsl_entry (EU.stripCtrl s) md = EU.parse_single_dsl_entry s md := by
  unfold EU.parse_single_dsl_entry EU.stripCtrl
  rw [show (String.mk (s.data.filter fun c => !EU.isCtrl c)).data
        = s.data.filter (fun c => !EU.isCtrl c) from rfl]
  rw [eu_foldl_filter_ctrl]

/-- C9 (amended): the query parser is built on
`entries_utility.parse_single_dsl_entry`, which *strips* the control
characters `'\0' '\n' '\r' '\t'` from segment content: the result on any
input equals the result on the input with those characters removed.  (It
is the `parse.py` variant that keeps all non-delimiter characters.) -/
theorem c9_query_ctrl_stripping (s : String) :
    EU.parse_query_string s = EU.parse_query_string (EU.stripCtrl s) := by
  unfold EU.parse_query_string
  rw [eu_parse_ignores_ctrl]

/-- C9 counterexample: the tab in `"a\tb"` is dropped by the query parser
(the claim says it is retained literally). -/
theorem c9_counterexample :
    (EU.parse_query_string "a\tb").expense = ["ab"] ∧ ("ab" : String) ≠ "a\tb" := by
  constructor
  · decide
  · decide

theorem length_filter_mono {α : Type} (p q : α → Bool)
    (himp : ∀ a, q a = true → p a = true) :
    ∀ l : List α, (l.filter q).length ≤ (l.filter p).length := by
  intro l
  induction l with
  | nil => simp
  | cons a t ih =>
      cases hq : q a with
      | true =>
          have hp : p a = true := himp a hq
          simpa [List.filter_cons, hq, hp] using ih
      | false =>
          cases hp : p a with
          | true =>
              simp [List.filter_cons, hq, hp]
              exact Nat.le_succ_of_le ih
          | false =>
              simpa [List.filter_cons, hq, hp] using ih

theorem length_filter_lt {α : Type} (p q : α → Bool) (x : α)
    (himp : ∀ a, q a = true → p a = true)
    (hpx : p x = true) (hqx : q x = false) :
    ∀ l : List α, x ∈ l → (l.filter q).length < (l.filter p).length := by
  intro l
  induction l with
  | nil => intro h; cases h
  | cons a t ih =>
      intro hmem
      rcases List.mem_cons.mp hmem with rfl | hmemt
      · have hle : (t.filter q).length ≤ (t.filter p).length :=
          length_filter_mono p q himp t
        simp [List.filter_cons, hpx, hqx]
        omega
      · cases hq : q a with
        | true =>
            have hp := himp a hq
            have := ih hmemt
            simp [List.filter_cons, hq, hp]
            omega
        | false =>
            cases hp : p a with
            | true =>
                have := ih hmemt
                simp [List.filter_cons, hq, hp]
                omega
            | false =>
                simpa [List.filter_cons, hq, hp] using ih hmemt

theorem lookup_mem_snd {k v : String} :
    ∀ l : List (String × String), List.lookup k l = some v → v ∈ l.map Prod.snd := by
  intro l
  induction l with
  | nil => intro h; simp [List.lookup] at h
  | cons kv t ih =>
      obtain ⟨k2, v2⟩ := kv
      intro h
      by_cases he : k = k2
      · subst he
        simp [List.lookup] at h
        simp [h]
      · have hbeq : (k == k2) = false := by simp [he]
        simp only [List.lookup, hbeq] at h
        exact List.mem_cons_of_mem _ (ih h)

theorem walkF_enough (hier : List (String × String)) :
    ∀ (fuel : Nat) (tag : String) (result : List String),
      ((hier.map Prod.snd).filter (fun v => !decide (v ∈ result))).length < fuel →
      ∃ r, EU.walkF hier fuel tag result = some r := by
  intro fuel
  induction fuel with
  | zero => intro tag result h; exact absurd h (Nat.not_lt_zero _)
  | succ n ih =>
      intro tag result h
      unfold EU.walkF
      cases hl : List.lookup tag hier with
      | none => exact ⟨result, rfl⟩
      | some p =>
          by_cases hp : p ∈ result
          · simp [hp]
          · simp only [hp, if_neg, if_false]
            apply ih
            have himp : ∀ a, (fun v => !decide (v ∈ result ++ [p])) a = true →
                (fun v => !decide (v ∈ result)) a = true := by
              intro a ha
              simp only [Bool.not_eq_true', decide_eq_false_iff_not] at ha ⊢
              intro hc
              exact ha (List.mem_append_left _ hc)
            have hpx : (fun v => !decide (v ∈ result)) p = true := by
              simp [hp]
            have hqx : (fun v => !decide (v ∈ result ++ [p])) p = false := by
              simp
            have hlt := length_filter_lt _ _ p himp hpx hqx (hier.map Prod.snd)
              (lookup_mem_snd hier hl)
            omega

theorem tagWalk_spec (hier : List (String × String)) (tag : String)
    (result : List String) :
    ∃ r, EU.walkF hier (hier.length + 1) tag result = some r ∧
      EU.tagWalk hier tag result = r := by
  obtain ⟨r, hr⟩ := walkF_enough hier (hier.length + 1) tag result (by
    have h1 : ((hier.map Prod.snd).filter (fun v => !decide (v ∈ result))).length
        ≤ (hier.map Prod.snd).length := List.length_filter_le _ _
    have h2 : (hier.map Prod.snd).length = hier.length := List.length_map _ _
    omega)
  exact ⟨r, hr, by simp [EU.tagWalk, hr]⟩

/-- C10: the per-entry `while` loop of `fix_tag_hierarchy` exits within
`hier.length + 1` iterations on *every* hierarchy — cyclic or self-looping
ones included — because each iteration inserts a previously-absent parent
into the result set; `tagWalk` (the loop as used by `fix_tag_hierarchy`)
therefore never diverges and equals the fueled loop's value. -/
theorem c10_fix_tag_hierarchy_terminates (hier : List (String × String))
    (tag : String) (result : List String) :
    ∃ r, EU.walkF hier (hier.length + 1) tag result = some r ∧
      EU.tagWalk hier tag result = r :=
  tagWalk_spec hier tag result

/-- The analogous sufficiency bound for the `while k in hier` loop of
`is_hierarchy_valid`: the fuel used by the embedding never runs out, so
the `none` outcome of `chainWalkF` is unreachable. -/
theorem chainWalkF_enough (hier : List (String × String)) :
    ∀ (fuel : Nat) (k : String) (history : List String),
      ((hier.map Prod.snd).filter (fun v => !decide (v ∈ history))).length < fuel →
      EU.chainWalkF hier fuel k history ≠ none := by
  intro fuel
  induction fuel with
  | zero => intro k history h; exact absurd h (Nat.not_lt_zero _)
  | succ n ih =>
      intro k history h
      unfold EU.chainWalkF
      cases hl : List.lookup k hier with
      | none => simp
      | some k2 =>
          by_cases hk : k2 ∈ history
          · simp [hk]
          · simp only [hk, if_neg, if_false]
            apply ih
            have himp : ∀ a, (fun v => !decide (v ∈ history ++ [k2])) a = true →
                (fun v => !decide (v ∈ history)) a = true := by
              intro a ha
              simp only [Bool.not_eq_true', decide_eq_false_iff_not] at ha ⊢
              intro hc
              exact ha (List.mem_append_left _ hc)
            have hpx : (fun v => !decide (v ∈ history)) k2 = true := by
              simp [hk]
            have hqx : (fun v => !decide (v ∈ history ++ [k2])) k2 = false := by
              simp
            have hlt := length_filter_lt _ _ k2 himp hpx hqx (hier.map Prod.snd)
              (lookup_mem_snd hier hl)
            omega

theorem walkF_succ_none (hier : List (String × String)) (n : Nat) {t : String}
    (R : List String) (hl : List.lookup t hier = none) :
    EU.walkF hier (n + 1) t R = some R := by
  conv_lhs => unfold EU.walkF; rw [hl]

theorem walkF_succ_some (hier : List (String × String)) (n : Nat) {t p : String}
    (R : List String) (hl : List.lookup t hier = some p) :
    EU.walkF hier (n + 1) t R
      = if p ∈ R then some R else EU.walkF hier n p (R ++ [p]) := by
  conv_lhs => unfold EU.walkF; rw [hl]

theorem tagReach_trans {hier : List (String × String)} {a b c : String}
    (h1 : EU.TagReach hier a b) (h2 : EU.TagReach hier b c) :
    EU.TagReach hier a c := by
  induction h2 with
  | refl => exact h1
  | tail hbc e ih => exact EU.TagReach.tail ih e

theorem parentClosed_reach {hier : List (String × String)} {R : List String}
    (hc : EU.ParentClosed hier R) {t y : String} (ht : t ∈ R)
    (h : EU.TagReach hier t y) : y ∈ R := by
  induction h with
  | refl => exact ht
  | tail hab e ih => exact hc _ ih _ e

theorem walkF_subset (hier : List (String × String)) :
    ∀ (fuel : Nat) (t : String) (R R' : List String),
      EU.walkF hier fuel t R = some R' → ∀ x ∈ R, x ∈ R' := by
  intro fuel
  induction fuel with
  | zero => intro t R R' h; exact absurd h (by simp [EU.walkF])
  | succ n ih =>
      intro t R R' h
      cases hl : List.lookup t hier with
      | none =>
          rw [walkF_succ_none hier n R hl] at h
          intro x hx
          cases h
          exact hx
      | some p =>
          rw [walkF_succ_some hier n R hl] at h
          by_cases hp : p ∈ R
          · rw [if_pos hp] at h
            intro x hx
            cases h
            exact hx
          · rw [if_neg hp] at h
            intro x hx
            exact ih p (R ++ [p]) R' h x (List.mem_append_left _ hx)

theorem walkF_reach (hier : List (String × String)) :
    ∀ (fuel : Nat) (t : String) (R R' : List String),
      EU.walkF hier fuel t R = some R' →
      ∀ y ∈ R', y ∈ R ∨ EU.TagReach hier t y := by
  intro fuel
  induction fuel with
  | zero => intro t R R' h; exact absurd h (by simp [EU.walkF])
  | succ n ih =>
      intro t R R' h
      cases hl : List.lookup t hier with
      | none =>
          rw [walkF_succ_none hier n R hl] at h
          cases h
          intro y hy
          exact Or.inl hy
      | some p =>
          rw [walkF_succ_some hier n R hl] at h
          by_cases hp : p ∈ R
          · rw [if_pos hp] at h
            cases h
            intro y hy
            exact Or.inl hy
          · rw [if_neg hp] at h
            intro y hy
            rcases ih p (R ++ [p]) R' h y hy with hmem | hreach
            · rcases List.mem_append.mp hmem with hy2 | hy2
              · exact Or.inl hy2
              · have hyp : y = p := by simpa using hy2
                subst hyp
                exact Or.inr (EU.TagReach.tail (EU.TagReach.refl t) hl)
            · exact Or.inr (tagReach_trans
                (EU.TagReach.tail (EU.TagReach.refl t) hl) hreach)

theorem walkF_closed (hier : List (String × String)) :
    ∀ (fuel : Nat) (t : String) (R R' : List String),
      EU.walkF hier fuel t R = some R' →
      (∀ x ∈ R, x ≠ t → ∀ p, EU.Edge hier x p → p ∈ R) →
      EU.ParentClosed hier R' := by
  intro fuel
  induction fuel with
  | zero => intro t R R' h; exact absurd h (by simp [EU.walkF])
  | succ n ih =>
      intro t R R' h hce
      cases hl : List.lookup t hier with
      | none =>
          rw [walkF_succ_none hier n R hl] at h
          cases h
          intro x hx p hedge
          by_cases hxt : x = t
          · subst hxt
            rw [EU.Edge, hl] at hedge
            cases hedge
          · exact hce x hx hxt p hedge
      | some p0 =>
          rw [walkF_succ_some hier n R hl] at h
          by_cases hp : p0 ∈ R
          · rw [if_pos hp] at h
            cases h
            intro x hx p hedge
            by_cases hxt : x = t
            · subst hxt
              rw [EU.Edge, hl] at hedge
              cases hedge
              exact hp
            · exact hce x hx hxt p hedge
          · rw [if_neg hp] at h
            apply ih p0 (R ++ [p0]) R' h
            intro x hx hxp p hedge
            rcases List.mem_append.mp hx with hx2 | hx2
            · by_cases hxt : x = t
              · subst hxt
                rw [EU.Edge, hl] at hedge
                cases hedge
                exact List.mem_append_right _ (by simp)
              · exact List.mem_append_left _ (hce x hx2 hxt p hedge)
            · have : x = p0 := by simpa using hx2
              exact absurd this hxp

theorem walkF_nodup (hier : List (String × String)) :
    ∀ (fuel : Nat) (t : String) (R R' : List String),
      EU.walkF hier fuel t R = some R' → R.Nodup → R'.Nodup := by
  intro fuel
  induction fuel with
  | zero => intro t R R' h; exact absurd h (by simp [EU.walkF])
  | succ n ih =>
      intro t R R' h hnd
      cases hl : List.lookup t hier with
      | none =>
          rw [walkF_succ_none hier n R hl] at h
          cases h
          exact hnd
      | some p =>
          rw [walkF_succ_some hier n R hl] at h
          by_cases hp : p ∈ R
          · rw [if_pos hp] at h
            cases h
            exact hnd
          · rw [if_neg hp] at h
            exact ih p (R ++ [p]) R' h (by
              rw [List.nodup_append]
              exact ⟨hnd, List.nodup_singleton _, by simpa using hp⟩)

theorem expandGo (hier : List (String × String)) :
    ∀ (tags R : List String),
      EU.ParentClosed hier R → R.Nodup →
      EU.ParentClosed hier (tags.foldl (fun result t =>
          EU.tagWalk hier t (if t ∈ result then result else result ++ [t])) R) ∧
      (tags.foldl (fun result t =>
          EU.tagWalk hier t (if t ∈ result then result else result ++ [t])) R).Nodup ∧
      (∀ x, x ∈ tags.foldl (fun result t =>
          EU.tagWalk hier t (if t ∈ result then result else result ++ [t])) R ↔
        x ∈ R ∨ ∃ t ∈ tags, EU.TagReach hier t x) := by
  intro tags
  induction tags with
  | nil =>
      intro R hcl hnd
      refine ⟨hcl, hnd, ?_⟩
      intro x
      simp
  | cons t ts ih =>
      intro R hcl hnd
      obtain ⟨R2, hR2, htw⟩ := tagWalk_spec hier t (if t ∈ R then R else R ++ [t])
      have hR1sub : ∀ x ∈ R, x ∈ (if t ∈ R then R else R ++ [t]) := by
        intro x hx
        by_cases htR : t ∈ R
        · rw [if_pos htR]; exact hx
        · rw [if_neg htR]; exact List.mem_append_left _ hx
      have htR1 : t ∈ (if t ∈ R then R else R ++ [t]) := by
        by_cases htR : t ∈ R
        · rw [if_pos htR]; exact htR
        · rw [if_neg htR]; exact List.mem_append_right _ (by simp)
      have hR1ce : ∀ x ∈ (if t ∈ R then R else R ++ [t]), x ≠ t →
          ∀ p, EU.Edge hier x p → p ∈ (if t ∈ R then R else R ++ [t]) := by
        intro x hx hxt p hedge
        by_cases htR : t ∈ R
        · rw [if_pos htR] at hx ⊢
          exact hcl x hx p hedge
        · rw [if_neg htR] at hx ⊢
          rcases List.mem_append.mp hx with hx2 | hx2
          · exact List.mem_append_left _ (hcl x hx2 p hedge)
          · exact absurd (by simpa using hx2) hxt
      have hR1nd : (if t ∈ R then R else R ++ [t]).Nodup := by
        by_cases htR : t ∈ R
        · rw [if_pos htR]; exact hnd
        · rw [if_neg htR]
          rw [List.nodup_append]
          exact ⟨hnd, List.nodup_singleton _, by simpa using htR⟩
      have hR2cl : EU.ParentClosed hier R2 :=
        walkF_closed hier _ t _ R2 hR2 hR1ce
      have hR2nd : R2.Nodup := walkF_nodup hier _ t _ R2 hR2 hR1nd
      have hR2mem : ∀ x, x ∈ R2 ↔ x ∈ R ∨ EU.TagReach hier t x := by
        intro x
        constructor
        · intro hx
          rcases walkF_reach hier _ t _ R2 hR2 x hx with hx2 | hx2
          · by_cases htR : t ∈ R
            · rw [if_pos htR] at hx2
              exact Or.inl hx2
            · rw [if_neg htR] at hx2
              rcases List.mem_append.mp hx2 with hx3 | hx3
              · exact Or.inl hx3
              · have : x = t := by simpa using hx3
                subst this
                exact Or.inr (EU.TagReach.refl x)
          · exact Or.inr hx2
        · intro hx
          rcases hx with hx | hx
          · exact walkF_subset hier _ t _ R2 hR2 x (hR1sub x hx)
          · exact parentClosed_reach hR2cl
              (walkF_subset hier _ t _ R2 hR2 t htR1) hx
      have hfold : (t :: ts).foldl (fun result t =>
          EU.tagWalk hier t (if t ∈ result then result else result ++ [t])) R
          = ts.foldl (fun result t =>
          EU.tagWalk hier t (if t ∈ result then result else result ++ [t])) R2 := by
        rw [List.foldl_cons, htw]
      obtain ⟨hcl2, hnd2, hmem2⟩ := ih R2 hR2cl hR2nd
      rw [hfold]
      refine ⟨hcl2, hnd2, ?_⟩
      intro x
      rw [hmem2 x]
      constructor
      · intro hx
        rcases hx with hx | ⟨u, hu, hr⟩
        · rcases (hR2mem x).mp hx with hx2 | hx2
          · exact Or.inl hx2
          · exact Or.inr ⟨t, by simp, hx2⟩
        · exact Or.inr ⟨u, by simp [hu], hr⟩
      · intro hx
        rcases hx with hx | ⟨u, hu, hr⟩
        · exact Or.inl ((hR2mem x).mpr (Or.inl hx))
        · rcases List.mem_cons.mp hu with rfl | hu2
          · exact Or.inl ((hR2mem x).mpr (Or.inr hr))
          · exact Or.inr ⟨u, hu2, hr⟩

/-- C6: on a hierarchy accepted by `is_hierarchy_valid`, `fix_tag_hierarchy`
replaces each entry's tags with a duplicate-free list whose members are
exactly the ancestor closure (under repeated parent lookup) of the entry's
original tags, leaving all other fields unchanged. -/
theorem c6_expand_tags (entries : List EU.Entry) (hier : List (String × String))
    (hv : EU.is_hierarchy_valid hier = true) :
    List.Forall₂ (fun (ent ent2 : EU.Entry) =>
      ent2 = { ent with tags := ent2.tags } ∧ ent2.tags.Nodup ∧
      ∀ x, (x ∈ ent2.tags ↔ ∃ t ∈ ent.tags, EU.TagReach hier t x))
      entries (EU.fix_tag_hierarchy entries hier) := by
  induction entries with
  | nil => exact List.Forall₂.nil
  | cons e es ih =>
      refine List.Forall₂.cons ?_ ih
      have h := expandGo hier e.tags []
        (by intro x hx; cases hx) List.nodup_nil
      refine ⟨rfl, h.2.1, ?_⟩
      intro x
      have hm := h.2.2 x
      simp only [List.not_mem_nil, false_or] at hm
      exact hm

/-- C6 witness: hierarchy `{espresso: coffee, coffee: drink}` and an entry
with tags `["espresso"]`. -/
theorem c6_witness :
    List.Forall₂ (fun (ent ent2 : EU.Entry) =>
      ent2 = { ent with tags := ent2.tags } ∧ ent2.tags.Nodup ∧
      ∀ x, (x ∈ ent2.tags ↔ ∃ t ∈ ent.tags,
        EU.TagReach [("espresso", "coffee"), ("coffee", "drink")] t x))
      [⟨"", "", "", [], ["espresso"]⟩]
      (EU.fix_tag_hierarchy [⟨"", "", "", [], ["espresso"]⟩]
        [("espresso", "coffee"), ("coffee", "drink")]) :=
  c6_expand_tags [⟨"", "", "", [], ["espresso"]⟩]
    [("espresso", "coffee"), ("coffee", "drink")] (by decide)

theorem string_mk_data (s : String) : String.mk s.data = s := rfl

theorem splitChar_cons_ne {d c : Char} (hc : c ≠ d) (l acc : List Char) :
    splitChar d (c :: l) acc = splitChar d l (c :: acc) := by
  simp [splitChar, hc]

theorem splitChar_cons_eq (d : Char) (l acc : List Char) :
    splitChar d (d :: l) acc = acc.reverse :: splitChar d l [] := by
  simp [splitChar]

theorem splitChar_no_sep (d : Char) :
    ∀ (a : List Char), d ∉ a → ∀ (acc : List Char),
      splitChar d a acc = [acc.reverse ++ a] := by
  intro a
  induction a with
  | nil => intro _ acc; simp [splitChar]
  | cons c rest ih =>
      intro hmem acc
      have hc : c ≠ d := fun h => hmem (h ▸ List.mem_cons_self c rest)
      have hrest : d ∉ rest := fun h => hmem (List.mem_cons_of_mem c h)
      rw [splitChar_cons_ne hc, ih hrest]
      simp

theorem splitChar_append (d : Char) :
    ∀ (a : List Char), d ∉ a → ∀ (b acc : List Char),
      splitChar d (a ++ d :: b) acc = (acc.reverse ++ a) :: splitChar d b [] := by
  intro a
  induction a with
  | nil =>
      intro _ b acc
      rw [List.nil_append, splitChar_cons_eq]
      simp
  | cons c rest ih =>
      intro hmem b acc
      have hc : c ≠ d := fun h => hmem (h ▸ List.mem_cons_self c rest)
      have hrest : d ∉ rest := fun h => hmem (List.mem_cons_of_mem c h)
      rw [List.cons_append, splitChar_cons_ne hc, ih hrest]
      simp

theorem splitColons_two_ne {c1 c2 : Char} (h : ¬(c1 = ':' ∧ c2 = ':'))
    (l acc : List Char) :
    splitColons (c1 :: c2 :: l) acc = splitColons (c2 :: l) (c1 :: acc) := by
  simp [splitColons, h]

theorem splitColons_two_colons (l acc : List Char) :
    splitColons (':' :: ':' :: l) acc = acc.reverse :: splitColons l [] := by
  simp [splitColons]

theorem splitColons_no_colon :
    ∀ (a : List Char), ':' ∉ a → ∀ (acc : List Char),
      splitColons a acc = [acc.reverse ++ a] := by
  intro a
  induction a with
  | nil => intro _ acc; simp [splitColons]
  | cons c rest ih =>
      intro hmem acc
      have hc : c ≠ ':' := fun h => hmem (h ▸ List.mem_cons_self c rest)
      have hrest : ':' ∉ rest := fun h => hmem (List.mem_cons_of_mem c h)
      cases rest with
      | nil => simp [splitColons]
      | cons c2 rest2 =>
          rw [splitColons_two_ne (fun h => hc h.1), ih hrest]
          simp

theorem splitColons_append :
    ∀ (a : List Char), ':' ∉ a → ∀ (b acc : List Char),
      splitColons (a ++ ':' :: ':' :: b) acc
        = (acc.reverse ++ a) :: splitColons b [] := by
  intro a
  induction a with
  | nil =>
      intro _ b acc
      rw [List.nil_append, splitColons_two_colons]
      simp
  | cons c rest ih =>
      intro hmem b acc
      have hc : c ≠ ':' := fun h => hmem (h ▸ List.mem_cons_self c rest)
      have hrest : ':' ∉ rest := fun h => hmem (List.mem_cons_of_mem c h)
      cases rest with
      | nil =>
          rw [List.cons_append, List.nil_append,
            splitColons_two_ne (fun h => hc h.1), splitColons_two_colons]
          simp
      | cons c2 rest2 =>
          rw [List.cons_append,
            show (c2 :: rest2) ++ ':' :: ':' :: b = c2 :: (rest2 ++ ':' :: ':' :: b)
              from List.cons_append c2 rest2 _,
            splitColons_two_ne (fun h => hc h.1),
            show c2 :: (rest2 ++ ':' :: ':' :: b) = (c2 :: rest2) ++ ':' :: ':' :: b
              from (List.cons_append c2 rest2 _).symm,
            ih hrest]
          simp

theorem pyJoin_colons_split :
    ∀ (tags : List String), (∀ t ∈ tags, ':' ∉ t.data) → tags ≠ [] →
      splitColons (pyJoin "::" tags).data [] = tags.map String.data := by
  intro tags
  induction tags with
  | nil => intro _ h; exact absurd rfl h
  | cons t rest ih =>
      intro hral _
      have ht : ':' ∉ t.data := hral t (by simp)
      cases rest with
      | nil =>
          rw [show pyJoin "::" [t] = t from rfl]
          rw [splitColons_no_colon t.data ht []]
          simp
      | cons u rest2 =>
          have hrest : ∀ x ∈ u :: rest2, ':' ∉ x.data :=
            fun x hx => hral x (List.mem_cons_of_mem t hx)
          rw [show pyJoin "::" (t :: u :: rest2)
                = t ++ "::" ++ pyJoin "::" (u :: rest2) from rfl]
          have hdata : (t ++ "::" ++ pyJoin "::" (u :: rest2)).data
              = t.data ++ ':' :: ':' :: (pyJoin "::" (u :: rest2)).data := by
            simp [String.data_append]
          rw [hdata, splitColons_append t.data ht _ [], ih hrest (by simp)]
          simp

theorem pyJoin_chars (sep : String) :
    ∀ (tags : List String) (c : Char), c ∈ (pyJoin sep tags).data →
      (∃ t ∈ tags, c ∈ t.data) ∨ c ∈ sep.data := by
  intro tags
  induction tags with
  | nil => intro c hc; cases hc
  | cons t rest ih =>
      intro c hc
      cases rest with
      | nil =>
          rw [show pyJoin sep [t] = t from rfl] at hc
          exact Or.inl ⟨t, by simp, hc⟩
      | cons u rest2 =>
          rw [show pyJoin sep (t :: u :: rest2)
                = t ++ sep ++ pyJoin sep (u :: rest2) from rfl] at hc
          simp only [String.data_append, List.mem_append] at hc
          rcases hc with (hc | hc) | hc
          · exact Or.inl ⟨t, by simp, hc⟩
          · exact Or.inr hc
          · rcases ih c hc with ⟨x, hx, hcx⟩ | hsep
            · exact Or.inl ⟨x, List.mem_cons_of_mem t hx, hcx⟩
            · exact Or.inr hsep

theorem pyJoin_ne_nil (tags : List String) (h : tags ≠ [])
    (hne : ∀ t ∈ tags, t.data ≠ []) : (pyJoin "::" tags).data ≠ [] := by
  cases tags with
  | nil => exact absurd rfl h
  | cons t rest =>
      cases rest with
      | nil => exact hne t (by simp)
      | cons u rest2 =>
          rw [show pyJoin "::" (t :: u :: rest2)
                = t ++ "::" ++ pyJoin "::" (u :: rest2) from rfl]
          simp only [String.data_append]
          intro hcontra
          have hlen := congrArg List.length hcontra
          simp at hlen

theorem if_ne_empty (s : String) : (if s ≠ "" then s else "") = s := by
  by_cases h : s = ""
  · simp [h]
  · simp [h]

theorem setColumn_sentinel (e : EU.TEntry) (name : String) :
    EU.setColumn e name "::::".data = e := by
  unfold EU.setColumn
  rw [if_pos rfl]

theorem setColumn_date (e : EU.TEntry) (cell : List Char)
    (h : String.mk cell ≠ "::::") :
    EU.setColumn e "date" cell = { e with date := String.mk cell } := by
  unfold EU.setColumn
  rw [if_neg h, if_neg (by decide : ¬("date" : String) = "tags"), if_pos rfl]

theorem setColumn_seq (e : EU.TEntry) (cell : List Char)
    (h : String.mk cell ≠ "::::") :
    EU.setColumn e "seq" cell = { e with seq := String.mk cell } := by
  unfold EU.setColumn
  rw [if_neg h, if_neg (by decide : ¬("seq" : String) = "tags"),
    if_neg (by decide : ¬("seq" : String) = "date"), if_pos rfl]

theorem setColumn_expense (e : EU.TEntry) (cell : List Char)
    (h : String.mk cell ≠ "::::") :
    EU.setColumn e "expense" cell = { e with expense := String.mk cell } := by
  unfold EU.setColumn
  rw [if_neg h, if_neg (by decide : ¬("expense" : String) = "tags"),
    if_neg (by decide : ¬("expense" : String) = "date"),
    if_neg (by decide : ¬("expense" : String) = "seq"), if_pos rfl]

theorem setColumn_title (e : EU.TEntry) (cell : List Char)
    (h : String.mk cell ≠ "::::") :
    EU.setColumn e "title" cell = { e with title := String.mk cell } := by
  unfold EU.setColumn
  rw [if_neg h, if_neg (by decide : ¬("title" : String) = "tags"),
    if_neg (by decide : ¬("title" : String) = "date"),
    if_neg (by decide : ¬("title" : String) = "seq"),
    if_neg (by decide : ¬("title" : String) = "expense"), if_pos rfl]

theorem setColumn_tags (e : EU.TEntry) (cell : List Char)
    (h : String.mk cell ≠ "::::") (hlen : 3 < cell.length) :
    EU.setColumn e "tags" cell
      = { e with tags := (splitColons (EU.cut2 cell) []).map String.mk } := by
  unfold EU.setColumn
  rw [if_neg h, if_pos rfl, if_pos hlen]

theorem row_cells (D S E T G : String)
    (hD : '\t' ∉ D.data) (hS : '\t' ∉ S.data) (hE : '\t' ∉ E.data)
    (hT : '\t' ∉ T.data) (hG : '\t' ∉ G.data) :
    splitChar '\t' (D ++ "\t" ++ S ++ "\t" ++ E ++ "\t" ++ T ++ "\t" ++ G).data []
      = [D.data, S.data, E.data, T.data, G.data] := by
  have hdata : (D ++ "\t" ++ S ++ "\t" ++ E ++ "\t" ++ T ++ "\t" ++ G).data
      = D.data ++ '\t' ::
          (S.data ++ '\t' :: (E.data ++ '\t' :: (T.data ++ '\t' :: G.data))) := by
    simp [String.data_append]
  rw [hdata, splitChar_append '\t' D.data hD, splitChar_append '\t' S.data hS,
    splitChar_append '\t' E.data hE, splitChar_append '\t' T.data hT,
    splitChar_no_sep '\t' G.data hG]
  simp

theorem tags_cell_data (tags : List String) :
    ("::" ++ pyJoin "::" tags ++ "::").data
      = ':' :: ':' :: ((pyJoin "::" tags).data ++ [':', ':']) := by
  simp [String.data_append]

theorem tags_cell_no_tab (tags : List String)
    (htags : ∀ t ∈ tags, '\t' ∉ t.data) :
    '\t' ∉ ("::" ++ pyJoin "::" tags ++ "::").data := by
  rw [tags_cell_data]
  intro hm
  simp only [List.mem_cons, List.mem_append] at hm
  rcases hm with h | h | (h | h)
  · exact absurd h (by decide)
  · exact absurd h (by decide)
  · rcases pyJoin_chars "::" tags '\t' h with ⟨t, ht, hct⟩ | hsep
    · exact htags t ht hct
    · exact absurd hsep (by decide)
  · rcases h with h2 | h2 | h2
    · exact absurd h2 (by decide)
    · exact absurd h2 (by decide)
    · cases h2

theorem tags_cell_ne_sentinel (tags : List String) (hne : tags ≠ [])
    (hdata : ∀ t ∈ tags, t.data ≠ []) :
    String.mk ("::" ++ pyJoin "::" tags ++ "::").data ≠ "::::" := by
  rw [tags_cell_data]
  intro h
  have hd := congrArg String.data h
  have hlen := congrArg List.length hd
  simp at hlen
  exact pyJoin_ne_nil tags hne hdata (List.length_eq_zero.mp hlen)

theorem tags_cell_len (tags : List String) :
    3 < ("::" ++ pyJoin "::" tags ++ "::").data.length := by
  rw [tags_cell_data]
  simp

theorem tags_cell_cut (tags : List String) :
    EU.cut2 ("::" ++ pyJoin "::" tags ++ "::").data = (pyJoin "::" tags).data := by
  rw [tags_cell_data]
  unfold EU.cut2
  rw [show List.drop 2 (':' :: ':' :: ((pyJoin "::" tags).data ++ [':', ':']))
        = (pyJoin "::" tags).data ++ [':', ':'] from rfl]
  rw [show (pyJoin "::" tags).data ++ [':', ':']
        = ((pyJoin "::" tags).data ++ [':']) ++ [':'] by simp]
  rw [List.dropLast_concat, List.dropLast_concat]

theorem parse_row_of_cells (D S E T G : String)
    (hD : '\t' ∉ D.data) (hS : '\t' ∉ S.data) (hE : '\t' ∉ E.data)
    (hT : '\t' ∉ T.data) (hG : '\t' ∉ G.data) :
    EU.parse_row (D ++ "\t" ++ S ++ "\t" ++ E ++ "\t" ++ T ++ "\t" ++ G)
      = EU.setColumn (EU.setColumn (EU.setColumn (EU.setColumn (EU.setColumn
          EU.emptyTEntry "date" D.data) "seq" S.data) "expense" E.data)
          "title" T.data) "tags" G.data := by
  unfold EU.parse_row
  rw [row_cells D S E T G hD hS hE hT hG]
  rfl

theorem map_mk_data : ∀ l : List String, (l.map String.data).map String.mk = l := by
  intro l
  induction l with
  | nil => rfl
  | cons a t ih => simp [ih]

theorem c4_parse_row (e : EU.TEntry)
    (hd1 : '\t' ∉ e.date.data) (hd2 : e.date ≠ "::::")
    (hs1 : '\t' ∉ e.seq.data) (hs2 : e.seq ≠ "::::")
    (he1 : '\t' ∉ e.expense.data) (he2 : e.expense ≠ "::::")
    (ht1 : '\t' ∉ e.title.data) (ht2 : e.title ≠ "::::")
    (htags : ∀ t ∈ e.tags, t.data ≠ [] ∧ '\t' ∉ t.data ∧ ':' ∉ t.data) :
    EU.parse_row (EU.format_one e) = e := by
  have hDtab : '\t' ∉ (if e.date ≠ "" then e.date else "::::").data := by
    by_cases h : e.date = ""
    · rw [if_neg (by simp [h])]
      decide
    · rw [if_pos h]
      exact hd1
  have hTtab : '\t' ∉ (if e.title ≠ "" then e.title else "::::").data := by
    by_cases h : e.title = ""
    · rw [if_neg (by simp [h])]
      decide
    · rw [if_pos h]
      exact ht1
  have hGtab : '\t' ∉
      ("::" ++ (if e.tags ≠ [] then pyJoin "::" e.tags else "") ++ "::").data := by
    by_cases h : e.tags = []
    · rw [if_neg (by simp [h])]
      decide
    · rw [if_pos h]
      exact tags_cell_no_tab e.tags (fun t ht => (htags t ht).2.1)
  have hform : EU.format_one e
      = (if e.date ≠ "" then e.date else "::::") ++ "\t" ++ e.seq ++ "\t" ++ e.expense
        ++ "\t" ++ (if e.title ≠ "" then e.title else "::::") ++ "\t"
        ++ ("::" ++ (if e.tags ≠ [] then pyJoin "::" e.tags else "") ++ "::") := by
    unfold EU.format_one
    rw [if_ne_empty e.seq, if_ne_empty e.expense]
  have h1 : EU.setColumn EU.emptyTEntry "date"
      (if e.date ≠ "" then e.date else "::::").data = ⟨e.date, "", "", "", []⟩ := by
    by_cases h : e.date = ""
    · rw [if_neg (by simp [h]), setColumn_sentinel, h]
      rfl
    · rw [if_pos h, setColumn_date _ _ (by rw [string_mk_data]; exact hd2),
        string_mk_data]
      rfl
  have h2 : EU.setColumn ⟨e.date, "", "", "", []⟩ "seq" e.seq.data
      = ⟨e.date, e.seq, "", "", []⟩ := by
    rw [setColumn_seq _ _ (by rw [string_mk_data]; exact hs2), string_mk_data]
  have h3 : EU.setColumn ⟨e.date, e.seq, "", "", []⟩ "expense" e.expense.data
      = ⟨e.date, e.seq, e.expense, "", []⟩ := by
    rw [setColumn_expense _ _ (by rw [string_mk_data]; exact he2), string_mk_data]
  have h4 : EU.setColumn ⟨e.date, e.seq, e.expense, "", []⟩ "title"
      (if e.title ≠ "" then e.title else "::::").data
      = ⟨e.date, e.seq, e.expense, e.title, []⟩ := by
    by_cases h : e.title = ""
    · rw [if_neg (by simp [h]), setColumn_sentinel, h]
    · rw [if_pos h, setColumn_title _ _ (by rw [string_mk_data]; exact ht2),
        string_mk_data]
  have h5 : EU.setColumn ⟨e.date, e.seq, e.expense, e.title, []⟩ "tags"
      ("::" ++ (if e.tags ≠ [] then pyJoin "::" e.tags else "") ++ "::").data
      = ⟨e.date, e.seq, e.expense, e.title, e.tags⟩ := by
    by_cases h : e.tags = []
    · rw [if_neg (by simp [h]),
        show ("::" ++ "" ++ "::" : String) = "::::" from rfl,
        setColumn_sentinel, h]
    · rw [if_pos h,
        setColumn_tags _ _
          (tags_cell_ne_sentinel e.tags h (fun t ht => (htags t ht).1))
          (tags_cell_len e.tags),
        tags_cell_cut,
        pyJoin_colons_split e.tags (fun t ht => (htags t ht).2.2) h,
        map_mk_data]
  rw [hform, parse_row_of_cells _ _ _ _ _ hDtab hs1 he1 hTtab hGtab,
    h1, h2, h3, h4, h5]

/-- C4 (amended): decoding the encoding of a single entry reproduces it
exactly provided `date`, `seq`, `expense` and `title` contain no tab and
none equals the literal sentinel `::::`, and every tag is non-empty and
contains neither tab nor colon.  (The original claim, quantified over all
entries, fails outside these conditions — e.g. a title equal to `::::` or
a tag containing `::` — not only in the stated empty-tags sentinel case.) -/
theorem c4_tsv_roundtrip (e : EU.TEntry)
    (hd1 : '\t' ∉ e.date.data) (hd2 : e.date ≠ "::::")
    (hs1 : '\t' ∉ e.seq.data) (hs2 : e.seq ≠ "::::")
    (he1 : '\t' ∉ e.expense.data) (he2 : e.expense ≠ "::::")
    (ht1 : '\t' ∉ e.title.data) (ht2 : e.title ≠ "::::")
    (htags : ∀ t ∈ e.tags, t.data ≠ [] ∧ '\t' ∉ t.data ∧ ':' ∉ t.data) :
    EU.parse_tsv_entries (EU.format_entry [e]) false = [e] := by
  have hrow := c4_parse_row e hd1 hd2 hs1 hs2 he1 he2 ht1 ht2 htags
  simp [EU.parse_tsv_entries, EU.format_entry, hrow]

/-- C4 counterexample: the entry with `title = "::::"` and tags `["x"]`
(tags non-empty, so the claim's sentinel-collision exception does not
apply) does not round-trip: its title decodes to `""`. -/
theorem c4_counterexample :
    EU.parse_tsv_entries (EU.format_entry [⟨"", "", "", "::::", ["x"]⟩]) false
      ≠ [⟨"", "", "", "::::", ["x"]⟩] := by
  decide

/-- C4 witness: a representative entry round-trips. -/
theorem c4_witness :
    EU.parse_tsv_entries
        (EU.format_entry [⟨"2024-01-01", "1", "12.50", "coffee", ["a", "b"]⟩]) false
      = [⟨"2024-01-01", "1", "12.50", "coffee", ["a", "b"]⟩] :=
  c4_tsv_roundtrip ⟨"2024-01-01", "1", "12.50", "coffee", ["a", "b"]⟩
    (by decide) (by decide) (by decide) (by decide) (by decide) (by decide)
    (by decide) (by decide) (by decide)

theorem digit_char_val (d : Nat) (hd : d < 10) :
    (Char.ofNat (48 + d)).toNat - 48 = d ∧ (Char.ofNat (48 + d)).isDigit = true := by
  interval_cases d <;> exact ⟨by decide, by decide⟩

theorem digitsRev_spec :
    ∀ (fuel n : Nat), n ≤ fuel →
      List.foldl (fun a d => a * 10 + d) 0 (EU.digitsRev fuel n).reverse = n ∧
      (∀ d ∈ EU.digitsRev fuel n, d < 10) ∧
      (n ≠ 0 → EU.digitsRev fuel n ≠ []) := by
  intro fuel
  induction fuel with
  | zero =>
      intro n hn
      have h0 : n = 0 := Nat.le_zero.mp hn
      subst h0
      refine ⟨rfl, ?_, fun h => absurd rfl h⟩
      intro d hd
      cases hd
  | succ m ih =>
      intro n hn
      by_cases h0 : n = 0
      · subst h0
        refine ⟨rfl, ?_, fun h => absurd rfl h⟩
        intro d hd
        simp [EU.digitsRev] at hd
      · have hstep : EU.digitsRev (m + 1) n = n % 10 :: EU.digitsRev m (n / 10) := by
          simp [EU.digitsRev, h0]
        have hdiv : n / 10 ≤ m := by
          have h1 : n / 10 < n := Nat.div_lt_self (Nat.pos_of_ne_zero h0) (by omega)
          omega
        obtain ⟨hval, hlt, _⟩ := ih (n / 10) hdiv
        refine ⟨?_, ?_, ?_⟩
        · rw [hstep, List.reverse_cons, List.foldl_append, hval]
          simp
          omega
        · intro d hd
          rw [hstep] at hd
          rcases List.mem_cons.mp hd with rfl | hd2
          · exact Nat.mod_lt _ (by omega)
          · exact hlt d hd2
        · intro _
          rw [hstep]
          simp

theorem foldl_digit_chars :
    ∀ (l : List Nat), (∀ d ∈ l, d < 10) → ∀ (a : Nat),
      List.foldl (fun acc c => acc * 10 + (c.toNat - 48)) a
          (l.map (fun d => Char.ofNat (48 + d)))
        = List.foldl (fun acc d => acc * 10 + d) a l := by
  intro l
  induction l with
  | nil => intro _ a; rfl
  | cons d rest ih =>
      intro hl a
      have hd : d < 10 := hl d (by simp)
      have hrest : ∀ x ∈ rest, x < 10 := fun x hx => hl x (by simp [hx])
      simp only [List.map_cons, List.foldl_cons, (digit_char_val d hd).1]
      exact ih hrest _

theorem pyStr_ne_empty (n : Nat) : EU.pyStr n ≠ "" := by
  unfold EU.pyStr
  by_cases h0 : n = 0
  · rw [if_pos h0]
    decide
  · rw [if_neg h0]
    intro hcontra
    have hd := congrArg String.data hcontra
    simp only [String.mk] at hd
    have hne : EU.digitsRev n n ≠ [] := (digitsRev_spec n n (Nat.le_refl n)).2.2 h0
    simp at hd
    exact hne hd

theorem pyInt_pyStr (n : Nat) : EU.pyInt (EU.pyStr n) = some n := by
  by_cases h0 : n = 0
  · subst h0
    decide
  · have hspec := digitsRev_spec n n (Nat.le_refl n)
    have hne : EU.digitsRev n n ≠ [] := hspec.2.2 h0
    have hstr : EU.pyStr n
        = String.mk (((EU.digitsRev n n).reverse).map (fun d => Char.ofNat (48 + d))) := by
      unfold EU.pyStr
      rw [if_neg h0]
    have hdata : (EU.pyStr n).data
        = ((EU.digitsRev n n).reverse).map (fun d => Char.ofNat (48 + d)) := by
      rw [hstr]
    have hlt : ∀ d ∈ (EU.digitsRev n n).reverse, d < 10 := by
      intro d hd
      exact hspec.2.1 d (List.mem_reverse.mp hd)
    have hnonempty : (EU.pyStr n).data ≠ [] := by
      rw [hdata]
      intro h
      simp at h
      exact hne h
    have hdigits : (EU.pyStr n).data.all Char.isDigit = true := by
      rw [hdata]
      rw [List.all_eq_true]
      intro c hc
      rcases List.mem_map.mp hc with ⟨d, hd, rfl⟩
      exact (digit_char_val d (hlt d hd)).2
    unfold EU.pyInt
    rw [if_pos]
    · congr 1
      rw [hdata, foldl_digit_chars _ hlt 0]
      exact hspec.1
    · constructor
      · intro h
        exact hnonempty (congrArg String.data h)
      · exact hdigits

theorem pyStr_injective {a b : Nat} (h : EU.pyStr a = EU.pyStr b) : a = b := by
  have ha := pyInt_pyStr a
  rw [h, pyInt_pyStr b] at ha
  exact (Option.some.inj ha).symm

theorem nextFreeF_some (ex : List Nat) :
    ∀ (fuel c n : Nat), EU.nextFreeF ex fuel c = some n → n ∉ ex ∧ c ≤ n := by
  intro fuel
  induction fuel with
  | zero => intro c n h; exact absurd h (by simp [EU.nextFreeF])
  | succ m ih =>
      intro c n h
      unfold EU.nextFreeF at h
      by_cases hc : c ∈ ex
      · rw [if_pos hc] at h
        obtain ⟨h1, h2⟩ := ih (c + 1) n h
        exact ⟨h1, by omega⟩
      · rw [if_neg hc] at h
        cases h
        exact ⟨hc, Nat.le_refl c⟩

theorem nextFreeF_enough (ex : List Nat) :
    ∀ (fuel c : Nat),
      (ex.filter (fun v => decide (c ≤ v))).length < fuel →
      ∃ n, EU.nextFreeF ex fuel c = some n := by
  intro fuel
  induction fuel with
  | zero => intro c h; exact absurd h (Nat.not_lt_zero _)
  | succ m ih =>
      intro c h
      unfold EU.nextFreeF
      by_cases hc : c ∈ ex
      · rw [if_pos hc]
        apply ih
        have himp : ∀ a, (fun v => decide (c + 1 ≤ v)) a = true →
            (fun v => decide (c ≤ v)) a = true := by
          intro a ha
          simp only [decide_eq_true_iff] at ha ⊢
          omega
        have hpx : (fun v => decide (c ≤ v)) c = true := by simp
        have hqx : (fun v => decide (c + 1 ≤ v)) c = false := by simp
        have hlt := length_filter_lt _ _ c himp hpx hqx ex hc
        omega
      · rw [if_neg hc]
        exact ⟨c, rfl⟩

theorem nextFree_spec (ex : List Nat) (c : Nat) :
    EU.nextFree ex c ∉ ex ∧ c ≤ EU.nextFree ex c := by
  obtain ⟨n, hn⟩ := nextFreeF_enough ex (ex.length + 1) c (by
    have h1 : (ex.filter (fun v => decide (c ≤ v))).length ≤ ex.length :=
      List.length_filter_le _ _
    omega)
  rw [EU.nextFree, hn]
  simpa using nextFreeF_some ex (ex.length + 1) c n hn

theorem collectExisting_some :
    ∀ (entries : List EU.SeqEntry) (start : Nat),
      (∀ e ∈ entries, ∀ s, e.seq = some s → (EU.pyInt s).isSome) →
      ∃ ex, EU.collectExisting entries start = some ex := by
  intro entries
  induction entries with
  | nil => intro start _; exact ⟨[], rfl⟩
  | cons e rest ih =>
      intro start hall
      have hrest : ∀ x ∈ rest, ∀ s, x.seq = some s → (EU.pyInt s).isSome :=
        fun x hx => hall x (List.mem_cons_of_mem e hx)
      obtain ⟨acc, hacc⟩ := ih start hrest
      cases hs : e.seq with
      | none =>
          refine ⟨acc, ?_⟩
          unfold EU.collectExisting
          simp only [hs]
          exact hacc
      | some s =>
          have hsome : (EU.pyInt s).isSome := hall e (by simp) s hs
          cases hv : EU.pyInt s with
          | none => rw [hv] at hsome; cases hsome
          | some v =>
              refine ⟨if start ≤ v then v :: acc else acc, ?_⟩
              unfold EU.collectExisting
              simp only [hs, hv, hacc]

theorem collectExisting_mem :
    ∀ (entries : List EU.SeqEntry) (start : Nat) (ex : List Nat),
      EU.collectExisting entries start = some ex →
      ∀ e ∈ entries, ∀ s v, e.seq = some s → EU.pyInt s = some v → start ≤ v →
        v ∈ ex := by
  intro entries
  induction entries with
  | nil => intro start ex _ e he; cases he
  | cons e0 rest ih =>
      intro start ex hex e he s v hs hv hstart
      rcases List.mem_cons.mp he with rfl | he2
      · unfold EU.collectExisting at hex
        simp only [hs, hv] at hex
        cases hacc : EU.collectExisting rest start with
        | none => simp only [hacc] at hex; cases hex
        | some acc =>
            simp only [hacc] at hex
            cases hex
            rw [if_pos hstart]
            exact List.mem_cons_self v acc
      · unfold EU.collectExisting at hex
        cases hs0 : e0.seq with
        | none =>
            simp only [hs0] at hex
            exact ih start ex hex e he2 s v hs hv hstart
        | some s0 =>
            simp only [hs0] at hex
            cases hv0 : EU.pyInt s0 with
            | none => simp only [hv0] at hex; cases hex
            | some v0 =>
                simp only [hv0] at hex
                cases hacc : EU.collectExisting rest start with
                | none => simp only [hacc] at hex; cases hex
                | some acc =>
                    simp only [hacc] at hex
                    cases hex
                    have hmem := ih start acc hacc e he2 s v hs hv hstart
                    by_cases hst : start ≤ v0
                    · rw [if_pos hst]
                      exact List.mem_cons_of_mem v0 hmem
                    · rw [if_neg hst]
                      exact hmem

theorem assignLoop_cons (ex : List Nat) (ow : Bool) (e : EU.SeqEntry)
    (rest : List EU.SeqEntry) (c : Nat) :
    EU.assignLoop ex ow (e :: rest) c
      = if e.seq = none ∨ e.seq = some "" ∨ ow = true then
          ⟨some (EU.pyStr (EU.nextFree ex c))⟩
            :: EU.assignLoop ex ow rest (EU.nextFree ex c + 1)
        else e :: EU.assignLoop ex ow rest (EU.nextFree ex c) :=
  rfl

theorem assignLoop_present (ex : List Nat) (ow : Bool) :
    ∀ (rest : List EU.SeqEntry) (c : Nat), ∀ o ∈ EU.assignLoop ex ow rest c,
      ∃ s, o.seq = some s ∧ s ≠ "" := by
  intro rest
  induction rest with
  | nil => intro c o ho; cases ho
  | cons e rest' ih =>
      intro c o ho
      rw [assignLoop_cons] at ho
      by_cases hcond : (e.seq = none ∨ e.seq = some "" ∨ ow = true)
      · rw [if_pos hcond] at ho
        rcases List.mem_cons.mp ho with rfl | ho2
        · exact ⟨EU.pyStr (EU.nextFree ex c), rfl, pyStr_ne_empty _⟩
        · exact ih _ o ho2
      · rw [if_neg hcond] at ho
        push_neg at hcond
        obtain ⟨h1, h2, _⟩ := hcond
        rcases List.mem_cons.mp ho with rfl | ho2
        · cases hseq : o.seq with
          | none => exact absurd hseq h1
          | some s =>
              exact ⟨s, rfl, fun hempty => h2 (by rw [hseq, hempty])⟩
        · exact ih _ o ho2

theorem assignLoop_keeps (ex : List Nat) (ow : Bool) :
    ∀ (rest : List EU.SeqEntry) (c : Nat),
      List.Forall₂ (fun e o => (ow = false ∧ e.seq ≠ none ∧ e.seq ≠ some "") → o = e)
        rest (EU.assignLoop ex ow rest c) := by
  intro rest
  induction rest with
  | nil => intro c; exact List.Forall₂.nil
  | cons e rest' ih =>
      intro c
      rw [assignLoop_cons]
      by_cases hcond : (e.seq = none ∨ e.seq = some "" ∨ ow = true)
      · rw [if_pos hcond]
        refine List.Forall₂.cons ?_ (ih _)
        rintro ⟨how, h1, h2⟩
        rcases hcond with hc | hc | hc
        · exact absurd hc h1
        · exact absurd hc h2
        · rw [how] at hc
          cases hc
      · rw [if_neg hcond]
        exact List.Forall₂.cons (fun _ => rfl) (ih _)

theorem assignLoop_mem (ex : List Nat) (ow : Bool) :
    ∀ (rest : List EU.SeqEntry) (c : Nat), ∀ o ∈ EU.assignLoop ex ow rest c,
      (ow = false ∧ ∃ s, o.seq = some s ∧ s ∈ rest.filterMap EU.SeqEntry.seq) ∨
      (∃ m, o.seq = some (EU.pyStr m) ∧ c ≤ m ∧ m ∉ ex) := by
  intro rest
  induction rest with
  | nil => intro c o ho; cases ho
  | cons e rest' ih =>
      intro c o ho
      rw [assignLoop_cons] at ho
      have hnf := nextFree_spec ex c
      by_cases hcond : (e.seq = none ∨ e.seq = some "" ∨ ow = true)
      · rw [if_pos hcond] at ho
        rcases List.mem_cons.mp ho with rfl | ho2
        · exact Or.inr ⟨EU.nextFree ex c, rfl, hnf.2, hnf.1⟩
        · rcases ih _ o ho2 with ⟨how, s, hs1, hs2⟩ | ⟨m, hm1, hm2, hm3⟩
          · refine Or.inl ⟨how, s, hs1, ?_⟩
            rcases List.mem_filterMap.mp hs2 with ⟨a, ha, hfa⟩
            exact List.mem_filterMap.mpr ⟨a, List.mem_cons_of_mem e ha, hfa⟩
          · refine Or.inr ⟨m, hm1, ?_, hm3⟩
            omega
      · rw [if_neg hcond] at ho
        push_neg at hcond
        obtain ⟨h1, h2, h3⟩ := hcond
        have how : ow = false := by
          cases ow
          · rfl
          · exact absurd rfl h3
        rcases List.mem_cons.mp ho with rfl | ho2
        · cases hseq : o.seq with
          | none => exact absurd hseq h1
          | some s =>
              exact Or.inl ⟨how, s, rfl,
                List.mem_filterMap.mpr ⟨o, List.mem_cons_self o rest', hseq⟩⟩
        · rcases ih _ o ho2 with ⟨how2, s, hs1, hs2⟩ | ⟨m, hm1, hm2, hm3⟩
          · refine Or.inl ⟨how2, s, hs1, ?_⟩
            rcases List.mem_filterMap.mp hs2 with ⟨a, ha, hfa⟩
            exact List.mem_filterMap.mpr ⟨a, List.mem_cons_of_mem e ha, hfa⟩
          · refine Or.inr ⟨m, hm1, ?_, hm3⟩
            omega

theorem assignLoop_pairwise (ex : List Nat) (ow : Bool) (start : Nat) :
    ∀ (rest : List EU.SeqEntry) (c : Nat), start ≤ c →
      (ow = false → ∀ s ∈ rest.filterMap EU.SeqEntry.seq,
        ∃ v, EU.pyInt s = some v ∧ (start ≤ v → v ∈ ex)) →
      (ow = false → (rest.filterMap EU.SeqEntry.seq).Pairwise (fun a b => a ≠ b)) →
      (EU.assignLoop ex ow rest c).Pairwise (fun a b => a.seq ≠ b.seq) := by
  intro rest
  induction rest with
  | nil =>
      intro c _ _ _
      exact List.Pairwise.nil
  | cons e rest' ih =>
      intro c hc Hp Hd
      have hnf := nextFree_spec ex c
      have hsub : ∀ s ∈ rest'.filterMap EU.SeqEntry.seq,
          s ∈ (e :: rest').filterMap EU.SeqEntry.seq := by
        intro s hsm
        rcases List.mem_filterMap.mp hsm with ⟨a, ha, hfa⟩
        exact List.mem_filterMap.mpr ⟨a, List.mem_cons_of_mem e ha, hfa⟩
      have Hp' : ow = false → ∀ s ∈ rest'.filterMap EU.SeqEntry.seq,
          ∃ v, EU.pyInt s = some v ∧ (start ≤ v → v ∈ ex) :=
        fun how s hs => Hp how s (hsub s hs)
      have Hd' : ow = false →
          (rest'.filterMap EU.SeqEntry.seq).Pairwise (fun a b => a ≠ b) := by
        intro how
        have hd := Hd how
        rw [List.filterMap_cons] at hd
        cases hfa : EU.SeqEntry.seq e with
        | none =>
            rw [hfa] at hd
            exact hd
        | some b =>
            rw [hfa] at hd
            exact (List.pairwise_cons.mp hd).2
      rw [assignLoop_cons]
      by_cases hcond : (e.seq = none ∨ e.seq = some "" ∨ ow = true)
      · rw [if_pos hcond]
        refine List.Pairwise.cons ?_ (ih (EU.nextFree ex c + 1) (by omega) ?_ ?_)
        · intro o ho heq
          have heq2 : some (EU.pyStr (EU.nextFree ex c)) = o.seq := heq
          rcases assignLoop_mem ex ow rest' _ o ho with ⟨how, s, hs1, hs2⟩
            | ⟨m, hm1, hm2, hm3⟩
          · obtain ⟨v, hv1, hv2⟩ := Hp how s (hsub s hs2)
            rw [hs1] at heq2
            have hps : EU.pyStr (EU.nextFree ex c) = s := Option.some.inj heq2
            have hvint : EU.pyInt s = some (EU.nextFree ex c) := by
              rw [← hps, pyInt_pyStr]
            rw [hv1] at hvint
            have hveq : v = EU.nextFree ex c := Option.some.inj hvint
            by_cases hsv : start ≤ v
            · exact hnf.1 (hveq ▸ hv2 hsv)
            · omega
          · rw [hm1] at heq2
            have := pyStr_injective (Option.some.inj heq2)
            omega
        · intro how
          exact Hp' how
        · intro how
          exact Hd' how
      · rw [if_neg hcond]
        push_neg at hcond
        obtain ⟨h1, h2, h3⟩ := hcond
        have how : ow = false := by
          cases ow
          · rfl
          · exact absurd rfl h3
        cases hseq : e.seq with
        | none => exact absurd hseq h1
        | some s0 =>
            have hs0mem : s0 ∈ (e :: rest').filterMap EU.SeqEntry.seq :=
              List.mem_filterMap.mpr ⟨e, List.mem_cons_self e rest', hseq⟩
            have hdhead : ∀ s ∈ rest'.filterMap EU.SeqEntry.seq, s0 ≠ s := by
              have hd := Hd how
              rw [List.filterMap_cons, hseq] at hd
              exact (List.pairwise_cons.mp hd).1
            refine List.Pairwise.cons ?_ (ih (EU.nextFree ex c) (by omega) ?_ ?_)
            · intro o ho heq
              have heq2 : e.seq = o.seq := heq
              rcases assignLoop_mem ex ow rest' _ o ho with ⟨how2, s, hs1, hs2⟩
                | ⟨m, hm1, hm2, hm3⟩
              · rw [hseq, hs1] at heq2
                exact hdhead s hs2 (Option.some.inj heq2)
              · obtain ⟨v0, hv01, hv02⟩ := Hp how s0 hs0mem
                rw [hseq, hm1] at heq2
                have hps : s0 = EU.pyStr m := Option.some.inj heq2
                have hvint : EU.pyInt s0 = some m := by
                  rw [hps, pyInt_pyStr]
                rw [hv01] at hvint
                have hveq : v0 = m := Option.some.inj hvint
                by_cases hsv : start ≤ v0
                · exact hm3 (hveq ▸ hv02 hsv)
                · omega
            · intro how2
              exact Hp' how2
            · intro how2
              exact Hd' how2

/-- C3 (amended): under the claim's hypothesis that the pre-existing `seq`
fields are decimal integers, and the *additional* hypothesis that those
pre-existing `seq` strings are pairwise distinct, `add_sequence_number`
succeeds, gives every entry a non-empty `seq`, makes all `seq` values
pairwise distinct, and (with `overwrite = false`) preserves pre-existing
non-empty `seq` values in place.  Without the added hypothesis the claim
fails: duplicated pre-existing values (e.g. two entries with seq `"0"`
and `start = 1`) are kept as-is and collide. -/
theorem c3_sequence_uniqueness (entries : List EU.SeqEntry) (start : Nat) (ow : Bool)
    (hparse : ow = false →
      ∀ s ∈ entries.filterMap EU.SeqEntry.seq, (EU.pyInt s).isSome)
    (hdist : ow = false →
      (entries.filterMap EU.SeqEntry.seq).Pairwise (fun a b => a ≠ b)) :
    ∃ out, EU.add_sequence_number entries start ow = some out ∧
      out.length = entries.length ∧
      (∀ o ∈ out, ∃ s, o.seq = some s ∧ s ≠ "") ∧
      out.Pairwise (fun a b => a.seq ≠ b.seq) ∧
      List.Forall₂ (fun e o => (ow = false ∧ e.seq ≠ none ∧ e.seq ≠ some "") → o = e)
        entries out := by
  cases ow with
  | true =>
      refine ⟨EU.assignLoop [] true entries start, ?_, ?_, ?_, ?_, ?_⟩
      · simp [EU.add_sequence_number]
      · exact (assignLoop_keeps [] true entries start).length_eq.symm
      · exact assignLoop_present [] true entries start
      · exact assignLoop_pairwise [] true start entries start (Nat.le_refl start)
          (fun h => by cases h) (fun h => by cases h)
      · exact assignLoop_keeps [] true entries start
  | false =>
      have hp : ∀ e ∈ entries, ∀ s, e.seq = some s → (EU.pyInt s).isSome := by
        intro e he s hs
        exact hparse rfl s (List.mem_filterMap.mpr ⟨e, he, hs⟩)
      obtain ⟨ex, hex⟩ := collectExisting_some entries start hp
      refine ⟨EU.assignLoop ex false entries start, ?_, ?_, ?_, ?_, ?_⟩
      · simp [EU.add_sequence_number, hex]
      · exact (assignLoop_keeps ex false entries start).length_eq.symm
      · exact assignLoop_present ex false entries start
      · refine assignLoop_pairwise ex false start entries start (Nat.le_refl start)
          ?_ (fun _ => hdist rfl)
        intro _ s hs
        rcases List.mem_filterMap.mp hs with ⟨e, he, hfe⟩
        have hsome := hp e he s hfe
        cases hv : EU.pyInt s with
        | none => rw [hv] at hsome; cases hsome
        | some v =>
            exact ⟨v, rfl,
              fun hstart => collectExisting_mem entries start ex hex e he s v hfe hv hstart⟩
      · exact assignLoop_keeps ex false entries start

/-- C3 counterexample: two entries both with pre-existing seq `"0"` and
`start = 1`, `overwrite = false` — both are kept and the resulting seq
values are not pairwise distinct, contradicting the claim's unconditional
uniqueness guarantee. -/
theorem c3_counterexample :
    EU.add_sequence_number [⟨some "0"⟩, ⟨some "0"⟩] 1 false
      = some [⟨some "0"⟩, ⟨some "0"⟩] ∧
    ¬ ([(⟨some "0"⟩ : EU.SeqEntry), ⟨some "0"⟩].Pairwise
        (fun a b => a.seq ≠ b.seq)) := by
  constructor
  · decide
  · decide

/-- C3 witness: `[{}, {}, {seq: "2"}]` with `start = 1`,
`overwrite = false`. -/
theorem c3_witness :
    ∃ out, EU.add_sequence_number [⟨none⟩, ⟨none⟩, ⟨some "2"⟩] 1 false = some out ∧
      out.length = ([⟨none⟩, ⟨none⟩, ⟨some "2"⟩] : List EU.SeqEntry).length ∧
      (∀ o ∈ out, ∃ s, o.seq = some s ∧ s ≠ "") ∧
      out.Pairwise (fun a b => a.seq ≠ b.seq) ∧
      List.Forall₂
        (fun e o => (false = false ∧ e.seq ≠ none ∧ e.seq ≠ some "") → o = e)
        [⟨none⟩, ⟨none⟩, ⟨some "2"⟩] out :=
  c3_sequence_uniqueness [⟨none⟩, ⟨none⟩, ⟨some "2"⟩] 1 false
    (by decide) (by decide)
